import Mathlib

/-
Verification of the subject-recommender scoring-and-scheduling pipeline.

The Python modules `preprocessing/weighting.py`, `preprocessing/aggregation.py`,
`preprocessing/normalisation.py` and `sessions/generator.py` are embedded as
executable Lean definitions over exact rationals.  Python dicts are modelled as
insertion-ordered association lists, dict iteration as list traversal, the
ambient configuration read through the `io` module is threaded explicitly, and
`math.sin` / `math.pi` are abstracted as parameters (the claims under study
never depend on their values).  Date strings are modelled post-parse: an entry
carries `Option Int` (a day number, `none` when `strptime` would fail).
-/

namespace SubjectRecommender

/-- A historical assessment entry as consumed by the preprocessing pipeline:
`subject` and `type` are the raw string fields, `score` the signed score and
`date` the parsed calendar date as a day number (`none` when the raw string
fails to parse as an ISO date). -/
structure HistoryEntry where
  subject : String
  type : String
  score : ℚ
  date : Option Int
deriving DecidableEq

/-- Python `m.get(k, d)` on a dict modelled as an association list. -/
def lookupD (m : List (String × ℚ)) (k : String) (d : ℚ) : ℚ :=
  match m.find? (fun p => p.1 == k) with
  | some p => p.2
  | none => d

/-- The date-weighting configuration returned by `io.get_date_weighting`. -/
structure DateWeighting where
  min_weight : ℚ
  max_weight : ℚ
  zero_day_threshold : Int
deriving DecidableEq

/-- `weighting._calculate_date_weight`: decay factor for an entry of the given
(parsed) date measured against `referenceDate`. -/
def calculateDateWeight (entryDate : Option Int) (cfg : DateWeighting)
    (referenceDate : Int) : ℚ :=
  match entryDate with
  | none => cfg.max_weight
  | some parsedDate =>
    let ageDays : Int := referenceDate - parsedDate
    let decayWindow : Int := max 1 cfg.zero_day_threshold
    if ageDays ≥ decayWindow then cfg.min_weight
    else if ageDays ≤ 0 then cfg.max_weight
    else
      let span := cfg.max_weight - cfg.min_weight
      let scaledWeight := cfg.max_weight - span * ((ageDays : ℚ) / (decayWindow : ℚ))
      max cfg.min_weight (min cfg.max_weight scaledWeight)

/-- The weight given to one history entry inside `weighting.apply_weighting`
(the body of the `for entry in history` loop before accumulation). -/
def entryWeight (assessmentWeights predictedGrades : List (String × ℚ))
    (dateWeighting : DateWeighting) (today : Int) (e : HistoryEntry) : ℚ :=
  let base := lookupD assessmentWeights e.type 0
  let w :=
    if e.score > 0 then base * (100 - e.score)
    else
      let predictedGrade := lookupD predictedGrades e.subject (1/10)
      let predictionDelta := 1 - predictedGrade
      ((Int.floor ((100 : ℚ) * predictionDelta) : Int) : ℚ)
  w * calculateDateWeight e.date dateWeighting today

/-- Per-subject accumulator rows `(subject, weightedSum, weightTotal)` in first
insertion order, mirroring the `defaultdict` in `apply_weighting`. -/
abbrev Totals := List (String × ℚ × ℚ)

/-- One `defaultdict` update `totals[subject]["weighted"] += dw;
totals[subject]["weight"] += dt` (a fresh subject is appended with zeros). -/
def addTotals : Totals → String → ℚ → ℚ → Totals
  | [], s, dw, dt => [(s, dw, dt)]
  | p :: rest, s, dw, dt =>
    if p.1 = s then (p.1, p.2.1 + dw, p.2.2 + dt) :: rest
    else p :: addTotals rest s dw dt

/-- Read a subject's accumulator pair, `(0, 0)` when the subject is absent. -/
def lookupTotals : Totals → String → ℚ × ℚ
  | [], _ => (0, 0)
  | p :: rest, s => if p.1 = s then p.2 else lookupTotals rest s

/-- `weighting.apply_weighting`: fold over the history accumulating
`score * weight` and `weight` per subject. -/
def applyWeighting (assessmentWeights predictedGrades : List (String × ℚ))
    (dateWeighting : DateWeighting) (today : Int)
    (history : List HistoryEntry) : Totals :=
  history.foldl
    (fun totals e =>
      let w := entryWeight assessmentWeights predictedGrades dateWeighting today e
      addTotals totals e.subject (e.score * w) w)
    []

/-- Reference date-decay factor transcribed from the claim: `maxWeight` when
the date is unparsable or `ageDays <= 0`, `minWeight` when
`ageDays >= zeroDayThresholdDays`, otherwise the clamped linear
interpolation. -/
def refDateDecay (entryDate : Option Int) (cfg : DateWeighting) (today : Int) : ℚ :=
  match entryDate with
  | none => cfg.max_weight
  | some parsedDate =>
    let ageDays : Int := today - parsedDate
    if ageDays ≤ 0 then cfg.max_weight
    else if ageDays ≥ cfg.zero_day_threshold then cfg.min_weight
    else
      max cfg.min_weight (min cfg.max_weight
        (cfg.max_weight - (cfg.max_weight - cfg.min_weight) *
          ((ageDays : ℚ) / (cfg.zero_day_threshold : ℚ))))

/-- Reference per-entry weight transcribed from the claim: assessment weight
(0 for unknown types) times `100 - score` for positive scores, otherwise
`floor(100 * (1 - predictedGrade(subject, default 0.1)))`, times the date
decay factor. -/
def refEntryWeight (assessmentWeights predictedGrades : List (String × ℚ))
    (dateWeighting : DateWeighting) (today : Int) (e : HistoryEntry) : ℚ :=
  (if e.score > 0 then lookupD assessmentWeights e.type 0 * (100 - e.score)
   else ((Int.floor ((100 : ℚ) * (1 - lookupD predictedGrades e.subject (1/10))) : Int) : ℚ))
  * refDateDecay e.date dateWeighting today

/-- Reference accumulator: sum of `score * weight` over one subject's entries. -/
def refWeightedSum (assessmentWeights predictedGrades : List (String × ℚ))
    (dateWeighting : DateWeighting) (today : Int)
    (history : List HistoryEntry) (s : String) : ℚ :=
  ((history.filter (fun e => e.subject == s)).map
    (fun e => e.score * refEntryWeight assessmentWeights predictedGrades dateWeighting today e)).sum

/-- Reference accumulator: sum of `weight` over one subject's entries. -/
def refWeightTotal (assessmentWeights predictedGrades : List (String × ℚ))
    (dateWeighting : DateWeighting) (today : Int)
    (history : List HistoryEntry) (s : String) : ℚ :=
  ((history.filter (fun e => e.subject == s)).map
    (refEntryWeight assessmentWeights predictedGrades dateWeighting today)).sum

theorem refDateDecay_eq_calculateDateWeight (d : Option Int) (cfg : DateWeighting)
    (today : Int) : refDateDecay d cfg today = calculateDateWeight d cfg today := by
  cases d with
  | none => rfl
  | some p =>
    simp only [refDateDecay, calculateDateWeight]
    set a : Int := today - p with ha
    by_cases h0 : a ≤ 0
    · have hW : ¬ a ≥ max 1 cfg.zero_day_threshold := by
        have : (1 : Int) ≤ max 1 cfg.zero_day_threshold := le_max_left _ _
        omega
      simp [h0, hW]
    · by_cases hT : a ≥ cfg.zero_day_threshold
      · have hW : a ≥ max 1 cfg.zero_day_threshold := by omega
        simp [h0, hT, hW]
      · have hT2 : (2 : Int) ≤ cfg.zero_day_threshold := by omega
        have hWT : max 1 cfg.zero_day_threshold = cfg.zero_day_threshold := by omega
        have hW : ¬ a ≥ max 1 cfg.zero_day_threshold := by omega
        simp [h0, hT, hW, hWT]

theorem refEntryWeight_eq_entryWeight (aw pg : List (String × ℚ))
    (dwc : DateWeighting) (today : Int) :
    refEntryWeight aw pg dwc today = entryWeight aw pg dwc today := by
  funext e
  simp only [refEntryWeight, entryWeight, refDateDecay_eq_calculateDateWeight]

theorem lookupTotals_addTotals (t : Totals) (s : String) (dw dt : ℚ) (u : String) :
    lookupTotals (addTotals t s dw dt) u =
      if u = s then ((lookupTotals t u).1 + dw, (lookupTotals t u).2 + dt)
      else lookupTotals t u := by
  induction t with
  | nil =>
    by_cases h : u = s
    · subst h; simp [addTotals, lookupTotals]
    · have h2 : ¬ s = u := fun hh => h hh.symm
      simp [addTotals, lookupTotals, h, h2]
  | cons p rest ih =>
    simp only [addTotals]
    by_cases hp : p.1 = s
    · rw [if_pos hp]
      by_cases hu : u = s
      · subst hu
        simp [lookupTotals, hp]
      · have hpu : ¬ p.1 = u := fun h => hu (h.symm.trans hp)
        simp only [lookupTotals, if_neg hpu, if_neg hu]
    · rw [if_neg hp]
      by_cases hpu : p.1 = u
      · have hu : ¬ u = s := fun h => hp (hpu.trans h)
        simp only [lookupTotals, if_pos hpu, if_neg hu]
      · simp only [lookupTotals, if_neg hpu, ih]

theorem lookupTotals_applyWeighting_foldl (aw pg : List (String × ℚ))
    (dwc : DateWeighting) (today : Int) (history : List HistoryEntry)
    (init : Totals) (s : String) :
    lookupTotals
      (history.foldl
        (fun totals e =>
          addTotals totals e.subject
            (e.score * entryWeight aw pg dwc today e)
            (entryWeight aw pg dwc today e)) init) s =
      ((lookupTotals init s).1 + refWeightedSum aw pg dwc today history s,
       (lookupTotals init s).2 + refWeightTotal aw pg dwc today history s) := by
  induction history generalizing init with
  | nil => simp [refWeightedSum, refWeightTotal]
  | cons e rest ih =>
    simp only [List.foldl_cons]
    rw [ih, lookupTotals_addTotals]
    by_cases hs : s = e.subject
    · rw [if_pos hs]
      subst hs
      simp only [refWeightedSum, refWeightTotal, refEntryWeight_eq_entryWeight,
        List.filter_cons, beq_self_eq_true, if_true, List.map_cons, List.sum_cons,
        Prod.mk.injEq]
      constructor <;> ring
    · rw [if_neg hs]
      have hbe : (e.subject == s) = false := by
        refine beq_eq_false_iff_ne.mpr (fun hh => hs hh.symm)
      simp only [refWeightedSum, refWeightTotal, List.filter_cons, hbe,
        Bool.false_eq_true, if_false]

/-- `aggregation.calculate_weighted_averages`: per-subject average, zero when
the accumulated weight is zero (Python falsiness of `weight_total`). -/
def calculateWeightedAverages (weightedHistory : Totals) : List (String × ℚ) :=
  weightedHistory.map (fun p =>
    (p.1, if p.2.2 ≠ 0 then p.2.1 / p.2.2 else 0))

/-- Python `floor(x * 100) / 100`. -/
def floorTwoDp (x : ℚ) : ℚ := ((Int.floor (x * 100) : Int) : ℚ) / 100

/-- `aggregation.aggregate_scores` with the predicted grades (read through
`io.get_predicted_grades` in the source) passed explicitly. -/
def aggregateScores (predictedGrades : List (String × ℚ))
    (weightedHistory : Totals) : List (String × ℚ) :=
  let weightedAverages := calculateWeightedAverages weightedHistory
  predictedGrades.map (fun p =>
    let weightTotal := (lookupTotals weightedHistory p.1).2
    let resultAverage := lookupD weightedAverages p.1 0
    let combinedScore := if weightTotal > 0 then resultAverage else p.2
    (p.1, floorTwoDp combinedScore))

/-- `normalisation.normalise_scores` with the score mapping passed explicitly
(`sum(values) or 1.0` becomes an explicit zero test). -/
def normaliseScores (scores : List (String × ℚ)) : List (String × ℚ) :=
  let total0 := (scores.map Prod.snd).sum
  let total := if total0 = 0 then 1 else total0
  scores.map (fun p => (p.1, p.2 / total))

/-- The fold performed by Python `min(d, key=lambda s: d[s])`: scan the pairs
keeping the current best, replacing it only on a strictly smaller value. -/
def foldMin (b : String × ℚ) : List (String × ℚ) → String × ℚ
  | [] => b
  | q :: t => foldMin (if q.2 < b.2 then q else b) t

/-- `normalisation.choose_lowest_subject`: first key attaining the minimum
value; the empty mapping raises `ValueError`. -/
def chooseLowestSubject (normalisedScores : List (String × ℚ)) : Except String String :=
  match normalisedScores with
  | [] => .error "normalised_scores cannot be empty"
  | p :: rest => .ok (foldMin p rest).1

/-- Python `str.strip()` on the underlying character list. -/
def stripChars (l : List Char) : List Char :=
  ((l.dropWhile Char.isWhitespace).reverse.dropWhile Char.isWhitespace).reverse

/-- Python `str.strip()`. -/
def stripString (s : String) : String := ⟨stripChars s.data⟩

/-- Lexicographic code-point comparison of character lists (Python `<=`). -/
def charListLe : List Char → List Char → Bool
  | [], _ => true
  | _ :: _, [] => false
  | a :: as, b :: bs =>
    if a.toNat < b.toNat then true
    else if b.toNat < a.toNat then false
    else charListLe as bs

/-- Python string `<=`. -/
def stringLe (a b : String) : Bool := charListLe a.data b.data

/-- Insertion step of the model of Python `sorted`. -/
def insertSorted (s : String) : List String → List String
  | [] => [s]
  | x :: xs => if stringLe s x then s :: x :: xs else x :: insertSorted s xs

/-- Python `sorted` over strings. -/
def sortStrings (l : List String) : List String := l.foldr insertSorted []

/-- Adding one element to a Python set modelled as a deduplicated list. -/
def insertUnique (l : List String) (s : String) : List String :=
  if s ∈ l then l else l ++ [s]

/-- The configuration the generator reads through the `io` module. -/
structure Config where
  assessmentWeights : List (String × ℚ)
  dateWeighting : DateWeighting
  predictedGrades : List (String × ℚ)

/-- Resolved session parameters (`count`, `session_time`, `break_time`). -/
structure SessionParams where
  count : Int
  session_time : Int
  break_time : Int

/-- `generator._build_revision_entry`, with `math.sin` and `math.pi`
abstracted as the parameters `sinQ` and `piQ`. -/
def buildRevisionEntry (cfg : Config) (sinQ : ℚ → ℚ) (piQ : ℚ) (subject : String)
    (session_time break_time : Int) (session_date : Option Int) : HistoryEntry :=
  let predictedGrade := lookupD cfg.predictedGrades subject 0
  let x := |predictedGrade - 1| * 2 * piQ
  let revisionScore := sinQ (x / 4 + piQ / 2) * ((session_time : ℚ) + (break_time : ℚ))
  ⟨subject, "Revision", revisionScore, session_date⟩

/-- `generator._initialise_local_scores`: full weighting → aggregation
pipeline over the working history, divided by 100. -/
def initialiseLocalScores (cfg : Config) (today : Int)
    (history : List HistoryEntry) : List (String × ℚ) :=
  (aggregateScores cfg.predictedGrades
      (applyWeighting cfg.assessmentWeights cfg.predictedGrades
        cfg.dateWeighting today history)).map
    (fun p => (p.1, p.2 / 100))

/-- `generator._adjust_local_scores`: the in-place dict mutation as a map over
the score entries. -/
def adjustLocalScores (local_scores : List (String × ℚ)) (chosen_subject : String)
    (session_time break_time : Int) : List (String × ℚ) :=
  let studied_delta := (0.005 : ℚ) * (2.5 * (session_time : ℚ) + (break_time : ℚ))
  let not_studied_delta := (0.005 : ℚ)
  local_scores.map (fun p =>
    if p.1 = chosen_subject then (p.1, p.2 + studied_delta)
    else (p.1, max (p.2 - not_studied_delta) 0))

/-- `generator._collect_subjects`: stripped non-empty history subjects united
with the predicted-grade keys, then filtered of empty labels. -/
def collectSubjects (history : List HistoryEntry)
    (predictedGrades : List (String × ℚ)) : List String :=
  let fromHistory := (history.filter (fun e => decide (e.subject ≠ ""))).map
    (fun e => stripString e.subject)
  let united := (fromHistory ++ predictedGrades.map Prod.fst).foldl insertUnique []
  united.filter (fun s => decide (s ≠ ""))

/-- One iteration of the accumulation loop of
`generator._calculate_predicted_grades_from_history`: skip blank subjects,
negative scores and non-positive assessment weights, otherwise accumulate
`score * weight` and `weight` under the stripped subject. -/
def predictedGradeStep (assessmentWeights : List (String × ℚ))
    (totals : Totals) (e : HistoryEntry) : Totals :=
  let subject := stripString e.subject
  if subject = "" then totals
  else if e.score < 0 then totals
  else
    let weight := lookupD assessmentWeights (stripString e.type) 0
    if weight ≤ 0 then totals
    else addTotals totals subject (e.score * weight) weight

/-- The `totals` / `weight_totals` accumulators of
`generator._calculate_predicted_grades_from_history` (kept in one `Totals`
association list; the two Python dicts always share their key set). -/
def predictedGradeTotals (assessmentWeights : List (String × ℚ))
    (history : List HistoryEntry) : Totals :=
  history.foldl (predictedGradeStep assessmentWeights) []

/-- The `tracked_subjects` set of
`generator._calculate_predicted_grades_from_history`. -/
def trackedFromHistory (history : List HistoryEntry) : List String :=
  history.foldl
    (fun tracked e =>
      if stripString e.subject = "" then tracked
      else insertUnique tracked (stripString e.subject))
    []

/-- `generator._calculate_predicted_grades_from_history`. -/
def calculatePredictedGradesFromHistory (assessmentWeights : List (String × ℚ))
    (history : List HistoryEntry) : List (String × ℚ) :=
  (sortStrings (trackedFromHistory history)).map
    (fun subject =>
      let t := lookupTotals (predictedGradeTotals assessmentWeights history) subject
      let averageScore := t.1 / max t.2 1
      (subject, max (min (averageScore / 100) 1) 0))

/-- `generator._build_not_studied_entries`. -/
def buildNotStudiedEntries (cfg : Config) (sinQ : ℚ → ℚ) (piQ : ℚ)
    (tracked_subjects studied_subjects : List String)
    (session_time break_time : Int) (session_date : Option Int) : List HistoryEntry :=
  (sortStrings tracked_subjects).filterMap
    (fun subject =>
      if subject ∈ studied_subjects then none
      else
        let predictedGrade := lookupD cfg.predictedGrades subject 0
        let x := (1 - predictedGrade) * piQ
        let penaltyScore := -sinQ x * ((session_time : ℚ) + (break_time : ℚ))
        some ⟨subject, "Not Studied", penaltyScore, session_date⟩)

/-- The mutable state of `_run_single_plan`'s selection loop. -/
structure ShotState where
  history : List HistoryEntry
  scores : List (String × ℚ)
  subjects : List String
  entries : List HistoryEntry
  tracked : List String

/-- One iteration of the selection loop in `generator._run_single_plan`. -/
def selectionStep (cfg : Config) (sinQ : ℚ → ℚ) (piQ : ℚ)
    (session_time break_time : Int) (session_date : Option Int)
    (st : ShotState) : Except String ShotState :=
  match chooseLowestSubject (normaliseScores st.scores) with
  | .error e => .error e
  | .ok subject =>
    let entry := buildRevisionEntry cfg sinQ piQ subject session_time break_time session_date
    .ok { history := st.history ++ [entry]
          scores := adjustLocalScores st.scores subject session_time break_time
          subjects := st.subjects ++ [subject]
          entries := st.entries ++ [entry]
          tracked := insertUnique st.tracked subject }

/-- `for _ in range(session_count)` around `selectionStep`. -/
def runSelections (cfg : Config) (sinQ : ℚ → ℚ) (piQ : ℚ)
    (session_time break_time : Int) (session_date : Option Int) :
    Nat → ShotState → Except String ShotState
  | 0, st => .ok st
  | n + 1, st =>
    match selectionStep cfg sinQ piQ session_time break_time session_date st with
    | .error e => .error e
    | .ok st2 => runSelections cfg sinQ piQ session_time break_time session_date n st2

/-- `generator.SessionPlan`. -/
structure SessionPlan where
  subjects : List String
  new_entries : List HistoryEntry
  history : List HistoryEntry

/-- `generator._run_single_plan`, returning the plan together with the mutated
working history; `random.shuffle` on the displayed subjects is abstracted as
the `shuffle` parameter. -/
def runSinglePlan (cfg : Config) (sinQ : ℚ → ℚ) (piQ : ℚ)
    (shuffle : List String → List String) (params : SessionParams)
    (session_date : Option Int) (today : Int)
    (local_history : List HistoryEntry) :
    Except String (SessionPlan × List HistoryEntry) :=
  let session_count := (max params.count 0).toNat
  let local_scores := initialiseLocalScores cfg today local_history
  let tracked_subjects := collectSubjects local_history cfg.predictedGrades
  match runSelections cfg sinQ piQ params.session_time params.break_time session_date
      session_count ⟨local_history, local_scores, [], [], tracked_subjects⟩ with
  | .error e => .error e
  | .ok st =>
    let not_studied := buildNotStudiedEntries cfg sinQ piQ st.tracked st.subjects
      params.session_time params.break_time session_date
    let final_history := st.history ++ not_studied
    let persisted := st.entries ++ not_studied
    .ok (⟨shuffle st.subjects, persisted, final_history⟩, final_history)

/-- The shot loop of `generator.generate_session_plan`, the shot count already
resolved. -/
def runShots (cfg : Config) (sinQ : ℚ → ℚ) (piQ : ℚ)
    (shuffle : List String → List String) (params : SessionParams)
    (session_date : Option Int) (today : Int) :
    Nat → List HistoryEntry → Except String (List SessionPlan)
  | 0, _ => .ok []
  | n + 1, hist =>
    match runSinglePlan cfg sinQ piQ shuffle params session_date today hist with
    | .error e => .error e
    | .ok (plan, hist2) =>
      match runShots cfg sinQ piQ shuffle params session_date today n hist2 with
      | .error e => .error e
      | .ok plans => .ok (plan :: plans)

/-- `generator.generate_session_plan`: `max(int(shots or 1), 1)` sequential
shots over one shared working history. -/
def generateSessionPlan (cfg : Config) (sinQ : ℚ → ℚ) (piQ : ℚ)
    (shuffle : List String → List String) (history : List HistoryEntry)
    (params : SessionParams) (session_date : Option Int) (today : Int)
    (shots : Int) : Except String (List SessionPlan) :=
  runShots cfg sinQ piQ shuffle params session_date today (max shots 1).toNat history

/-- C1: `apply_weighting` matches the reference definition: every entry gets
the score-conditional base weight times the claim's date-decay factor, and
each subject's accumulator holds the sums of `score * weight` and of `weight`
over that subject's entries. -/
theorem claim_C1_apply_weighting_ref (aw pg : List (String × ℚ))
    (dwc : DateWeighting) (today : Int) (history : List HistoryEntry) (s : String) :
    lookupTotals (applyWeighting aw pg dwc today history) s =
      (refWeightedSum aw pg dwc today history s,
       refWeightTotal aw pg dwc today history s) := by
  have h := lookupTotals_applyWeighting_foldl aw pg dwc today history [] s
  simpa [applyWeighting, lookupTotals] using h

theorem lookupD_calculateWeightedAverages (wh : Totals) (s : String) :
    lookupD (calculateWeightedAverages wh) s 0 =
      (if (lookupTotals wh s).2 ≠ 0
       then (lookupTotals wh s).1 / (lookupTotals wh s).2 else 0) := by
  induction wh with
  | nil => simp [lookupD, calculateWeightedAverages, lookupTotals, List.find?]
  | cons p rest ih =>
    by_cases h : p.1 = s
    · have hb : (p.1 == s) = true := beq_iff_eq.mpr h
      simp [lookupD, calculateWeightedAverages, lookupTotals, List.find?, hb, h]
    · have hb : (p.1 == s) = false := beq_eq_false_iff_ne.mpr h
      simpa [lookupD, calculateWeightedAverages, lookupTotals, List.find?, hb, h] using ih

/-- C3: `aggregate_scores` outputs a score for exactly the subjects of the
predicted-grades mapping, each equal to `weightedSum / weightTotal` when the
subject's `weightTotal > 0` and to the raw predicted grade otherwise, floored
to two decimals as `floor(value * 100) / 100`. -/
theorem claim_C3_aggregate_scores (pg : List (String × ℚ)) (wh : Totals) :
    (aggregateScores pg wh).map Prod.fst = pg.map Prod.fst ∧
    ∀ s g, (s, g) ∈ pg →
      (s, floorTwoDp (if 0 < (lookupTotals wh s).2
        then (lookupTotals wh s).1 / (lookupTotals wh s).2 else g))
        ∈ aggregateScores pg wh := by
  constructor
  · simp [aggregateScores]
  · intro s g hmem
    have hval : floorTwoDp (if (lookupTotals wh s).2 > 0
        then lookupD (calculateWeightedAverages wh) s 0 else g) =
        floorTwoDp (if 0 < (lookupTotals wh s).2
        then (lookupTotals wh s).1 / (lookupTotals wh s).2 else g) := by
      by_cases h : 0 < (lookupTotals wh s).2
      · rw [if_pos h, if_pos h, lookupD_calculateWeightedAverages,
          if_pos (ne_of_gt h)]
      · rw [if_neg h, if_neg h]
    have : (s, floorTwoDp (if (lookupTotals wh s).2 > 0
        then lookupD (calculateWeightedAverages wh) s 0 else g)) ∈ aggregateScores pg wh := by
      simp only [aggregateScores]
      exact List.mem_map.mpr ⟨(s, g), hmem, rfl⟩
    rwa [hval] at this

/-- C3 witness: on `pg = [("A", 1/2)]` and empty weighted history the theorem
applies and yields the fallback score. -/
theorem claim_C3_aggregate_scores_witness :
    ("A", floorTwoDp (if 0 < (lookupTotals [] "A").2
      then (lookupTotals [] "A").1 / (lookupTotals [] "A").2 else 1/2))
      ∈ aggregateScores [("A", 1/2)] [] :=
  (claim_C3_aggregate_scores [("A", 1/2)] []).2 "A" (1/2) (by simp)

theorem sum_map_div (l : List ℚ) (t : ℚ) :
    (l.map (fun x => x / t)).sum = l.sum / t := by
  induction l with
  | nil => simp
  | cons x xs ih => simp [ih, add_div]

/-- C4: `normalise_scores` divides every value by the sum of all values
(dividing by `1.0` when that sum is zero); hence for a positive total the
normalised values sum to exactly one, and an all-zero mapping is returned
unchanged. -/
theorem claim_C4_normalise_scores (scores : List (String × ℚ)) :
    ((scores.map Prod.snd).sum ≠ 0 →
      normaliseScores scores =
        scores.map (fun p => (p.1, p.2 / (scores.map Prod.snd).sum))) ∧
    (scores ≠ [] → 0 < (scores.map Prod.snd).sum →
      ((normaliseScores scores).map Prod.snd).sum = 1) ∧
    ((scores.map Prod.snd).sum = 0 → normaliseScores scores = scores) ∧
    ((∀ p ∈ scores, p.2 = 0) → normaliseScores scores = scores) := by
  have hzero : (scores.map Prod.snd).sum = 0 → normaliseScores scores = scores := by
    intro hsum
    simp only [normaliseScores, hsum, if_pos rfl]
    calc scores.map (fun p => (p.1, p.2 / 1)) = scores.map id := by
          apply List.map_congr_left
          intro p _
          simp
      _ = scores := List.map_id scores
  refine ⟨?_, ?_, hzero, ?_⟩
  · intro h
    simp [normaliseScores, if_neg h]
  · intro _ hpos
    have hne : (scores.map Prod.snd).sum ≠ 0 := ne_of_gt hpos
    simp only [normaliseScores, if_neg hne, List.map_map]
    have hcomp : (Prod.snd ∘ fun p : String × ℚ =>
        (p.1, p.2 / (scores.map Prod.snd).sum)) =
        (fun p : String × ℚ => p.2 / (scores.map Prod.snd).sum) := rfl
    rw [hcomp]
    have : (scores.map (fun p : String × ℚ => p.2 / (scores.map Prod.snd).sum)).sum =
        ((scores.map Prod.snd).map (fun x => x / (scores.map Prod.snd).sum)).sum := by
      rw [List.map_map]; rfl
    rw [this, sum_map_div, div_self hne]
  · intro hz
    refine hzero (List.sum_eq_zero ?_)
    intro x hx
    obtain ⟨p, hp, hpx⟩ := List.mem_map.mp hx
    exact hpx ▸ hz p hp

/-- C4 witness: a two-subject positive mapping normalises to total one, and
the all-zero singleton is unchanged. -/
theorem claim_C4_normalise_scores_witness :
    (([("a", (1:ℚ)), ("b", 3)].map Prod.snd).sum ≠ 0 →
      normaliseScores [("a", 1), ("b", 3)] =
        [("a", (1:ℚ)), ("b", 3)].map
          (fun p => (p.1, p.2 / ([("a", (1:ℚ)), ("b", 3)].map Prod.snd).sum))) ∧
    ([("a", (1:ℚ)), ("b", 3)] ≠ [] → 0 < (([("a", (1:ℚ)), ("b", 3)].map Prod.snd).sum) →
      ((normaliseScores [("a", 1), ("b", 3)]).map Prod.snd).sum = 1) ∧
    (([("a", (0:ℚ))].map Prod.snd).sum = 0 → normaliseScores [("a", 0)] = [("a", 0)]) ∧
    ((∀ p ∈ [("a", (0:ℚ))], p.2 = 0) → normaliseScores [("a", 0)] = [("a", 0)]) :=
  ⟨(claim_C4_normalise_scores [("a", 1), ("b", 3)]).1,
   (claim_C4_normalise_scores [("a", 1), ("b", 3)]).2.1,
   (claim_C4_normalise_scores [("a", 0)]).2.2.1,
   (claim_C4_normalise_scores [("a", 0)]).2.2.2⟩

theorem foldMin_mem_min (l : List (String × ℚ)) (b : String × ℚ) :
    foldMin b l ∈ b :: l ∧ ∀ q ∈ b :: l, (foldMin b l).2 ≤ q.2 := by
  induction l generalizing b with
  | nil => simp [foldMin]
  | cons q t ih =>
    simp only [foldMin]
    by_cases h : q.2 < b.2
    · rw [if_pos h]
      obtain ⟨hm, hle⟩ := ih q
      refine ⟨?_, ?_⟩
      · exact List.mem_cons_of_mem b hm
      · intro r hr
        rcases List.mem_cons.mp hr with hrb | hr2
        · subst hrb
          exact le_trans (hle q (List.mem_cons_self q t)) (le_of_lt h)
        · exact hle r hr2
    · rw [if_neg h]
      obtain ⟨hm, hle⟩ := ih b
      refine ⟨?_, ?_⟩
      · rcases List.mem_cons.mp hm with hrb | hr2
        · rw [hrb]; exact List.mem_cons_self b (q :: t)
        · exact List.mem_cons_of_mem b (List.mem_cons_of_mem q hr2)
      · intro r hr
        rcases List.mem_cons.mp hr with hrb | hr2
        · exact hrb ▸ hle b (List.mem_cons_self b t)
        · rcases List.mem_cons.mp hr2 with hrq | hr3
          · subst hrq
            exact le_trans (hle b (List.mem_cons_self b t)) (not_lt.mp h)
          · exact hle r (List.mem_cons_of_mem b hr3)

theorem foldMin_first (l : List (String × ℚ)) (b : String × ℚ) :
    ∃ l1 l2, b :: l = l1 ++ foldMin b l :: l2 ∧ ∀ q ∈ l1, (foldMin b l).2 < q.2 := by
  induction l generalizing b with
  | nil => exact ⟨[], [], rfl, by simp⟩
  | cons q t ih =>
    simp only [foldMin]
    by_cases h : q.2 < b.2
    · rw [if_pos h]
      obtain ⟨l1, l2, heq, hlt⟩ := ih q
      refine ⟨b :: l1, l2, ?_, ?_⟩
      · rw [List.cons_append]
        exact congrArg (b :: ·) heq
      · intro r hr
        rcases List.mem_cons.mp hr with hrb | hr1
        · subst hrb
          exact lt_of_le_of_lt ((foldMin_mem_min t q).2 q (List.mem_cons_self q t)) h
        · exact hlt r hr1
    · rw [if_neg h]
      obtain ⟨l1, l2, heq, hlt⟩ := ih b
      cases l1 with
      | nil =>
        simp only [List.nil_append] at heq
        refine ⟨[], q :: l2, ?_, by simp⟩
        rw [List.nil_append]
        have hb : b = foldMin b t := by
          have := congrArg (fun x => x.head?) heq
          simpa using this
        have ht : t = l2 := by
          have := congrArg List.tail heq
          simpa using this
        rw [← hb, ← ht]
      | cons x l1' =>
        simp only [List.cons_append, List.cons.injEq] at heq
        obtain ⟨hbx, ht⟩ := heq
        refine ⟨b :: q :: l1', l2, ?_, ?_⟩
        · rw [List.cons_append, List.cons_append]
          exact congrArg (fun z => b :: q :: z) ht
        · have hfb : (foldMin b t).2 < b.2 := by
            have := hlt x (List.mem_cons_self x l1')
            exact hbx ▸ this
          intro r hr
          rcases List.mem_cons.mp hr with hrb | hr1
          · exact hrb ▸ hfb
          · rcases List.mem_cons.mp hr1 with hrq | hr2
            · exact hrq ▸ lt_of_lt_of_le hfb (not_lt.mp h)
            · exact hlt r (List.mem_cons_of_mem x hr2)

/-- C5: `choose_lowest_subject` returns a subject attaining the minimum value,
the first such subject in the mapping's iteration order on ties, and fails
with the `ValueError` on the empty mapping. -/
theorem claim_C5_choose_lowest (scores : List (String × ℚ)) :
    (scores = [] →
      chooseLowestSubject scores = .error "normalised_scores cannot be empty") ∧
    (scores ≠ [] → ∃ l1 p l2, scores = l1 ++ p :: l2 ∧
      chooseLowestSubject scores = .ok p.1 ∧
      (∀ q ∈ scores, p.2 ≤ q.2) ∧ (∀ q ∈ l1, p.2 < q.2)) := by
  constructor
  · intro h; subst h; rfl
  · intro h
    match scores with
    | [] => exact absurd rfl h
    | b :: rest =>
      obtain ⟨l1, l2, heq, hlt⟩ := foldMin_first rest b
      exact ⟨l1, foldMin b rest, l2, heq, rfl,
        fun q hq => (foldMin_mem_min rest b).2 q (heq ▸ hq), hlt⟩

/-- C5 witness: on `[("a", 2), ("b", 1), ("c", 1)]` the theorem applies; the
chosen subject is the first minimum. -/
theorem claim_C5_choose_lowest_witness :
    ∃ l1 p l2, ([("a", (2:ℚ)), ("b", 1), ("c", 1)] : List (String × ℚ)) = l1 ++ p :: l2 ∧
      chooseLowestSubject [("a", 2), ("b", 1), ("c", 1)] = .ok p.1 ∧
      (∀ q ∈ ([("a", (2:ℚ)), ("b", 1), ("c", 1)] : List (String × ℚ)), p.2 ≤ q.2) ∧
      (∀ q ∈ l1, p.2 < q.2) :=
  (claim_C5_choose_lowest [("a", 2), ("b", 1), ("c", 1)]).2 (by simp)

/-- C7: `_adjust_local_scores` adds exactly `0.005 * (2.5 * sessionTime +
breakTime)` to the selected subject's score, subtracts a flat `0.005` from
every other subject's score flooring at zero, and changes nothing else (the
key list is preserved). -/
theorem claim_C7_adjust_local_scores (scores : List (String × ℚ))
    (chosen : String) (session_time break_time : Int) :
    ((adjustLocalScores scores chosen session_time break_time).map Prod.fst =
      scores.map Prod.fst) ∧
    ∀ s v, (s, v) ∈ scores →
      (s, if s = chosen
          then v + 0.005 * (2.5 * (session_time : ℚ) + (break_time : ℚ))
          else max (v - 0.005) 0)
        ∈ adjustLocalScores scores chosen session_time break_time := by
  constructor
  · simp only [adjustLocalScores, List.map_map]
    apply List.map_congr_left
    intro p _
    by_cases h : p.1 = chosen <;> simp [h]
  · intro s v hmem
    simp only [adjustLocalScores]
    refine List.mem_map.mpr ⟨(s, v), hmem, ?_⟩
    by_cases h : s = chosen <;> simp [h]

/-- C7 witness: the adjustment evaluated on a concrete two-subject map. -/
theorem claim_C7_adjust_local_scores_witness :
    ("a", if "a" = "a"
      then (1 : ℚ) + 0.005 * (2.5 * ((45 : Int) : ℚ) + ((15 : Int) : ℚ))
      else max ((1 : ℚ) - 0.005) 0)
      ∈ adjustLocalScores [("a", 1), ("b", 2)] "a" 45 15 :=
  (claim_C7_adjust_local_scores [("a", 1), ("b", 2)] "a" 45 15).2 "a" 1 (by simp)

theorem refWeightedSum_append (aw pg : List (String × ℚ)) (dwc : DateWeighting)
    (today : Int) (h1 h2 : List HistoryEntry) (s : String) :
    refWeightedSum aw pg dwc today (h1 ++ h2) s =
      refWeightedSum aw pg dwc today h1 s + refWeightedSum aw pg dwc today h2 s := by
  simp [refWeightedSum, List.filter_append]

theorem refWeightTotal_append (aw pg : List (String × ℚ)) (dwc : DateWeighting)
    (today : Int) (h1 h2 : List HistoryEntry) (s : String) :
    refWeightTotal aw pg dwc today (h1 ++ h2) s =
      refWeightTotal aw pg dwc today h1 s + refWeightTotal aw pg dwc today h2 s := by
  simp [refWeightTotal, List.filter_append]

/-- C8 counterexample: the claim fails for non-positive scores.  The type
`"Bogus"` is absent from the weight map, yet the entry with score `-5`
contributes `-450` to the weighted sum and `90` to the weight total (the
predicted-grade fallback weight `floor(100 * (1 - 0.1)) = 90` applies
regardless of the assessment type). -/
theorem claim_C8_lookup_gap_counterexample :
    (([("Exam", (2 : ℚ))] : List (String × ℚ)).find? (fun p => p.1 == "Bogus") = none) ∧
    lookupTotals (applyWeighting [("Exam", 2)] [] ⟨1, 1, 1⟩ 0
      [⟨"A", "Bogus", -5, none⟩]) "A" = (-450, 90) ∧
    ((-450 : ℚ), (90 : ℚ)) ≠ ((0 : ℚ), (0 : ℚ)) := by
  refine ⟨by decide, ?_, by norm_num [Prod.ext_iff]⟩
  have hfold := lookupTotals_applyWeighting_foldl [("Exam", 2)] [] ⟨1, 1, 1⟩ 0
    [⟨"A", "Bogus", -5, none⟩] [] "A"
  rw [show applyWeighting [("Exam", 2)] [] ⟨1, 1, 1⟩ 0 [⟨"A", "Bogus", -5, none⟩] =
      [⟨"A", "Bogus", -5, none⟩].foldl
        (fun totals e =>
          addTotals totals e.subject
            (e.score * entryWeight [("Exam", 2)] [] ⟨1, 1, 1⟩ 0 e)
            (entryWeight [("Exam", 2)] [] ⟨1, 1, 1⟩ 0 e)) [] from rfl, hfold]
  have hew : entryWeight [("Exam", 2)] [] ⟨1, 1, 1⟩ 0 ⟨"A", "Bogus", -5, none⟩ = 90 := by
    simp only [entryWeight, calculateDateWeight, lookupD, List.find?]
    norm_num
  simp only [refWeightedSum, refWeightTotal, List.filter_cons, List.filter_nil,
    refEntryWeight_eq_entryWeight]
  norm_num [hew, lookupTotals]

/-- C8 (amended): an entry whose assessment type is absent from the weight
map gets base weight zero, so when its score is positive it adds nothing to
its subject's accumulators; when its score is non-positive the weight is the
predicted-grade-derived one, the unknown type notwithstanding. -/
theorem claim_C8_lookup_gap_amended (aw pg : List (String × ℚ))
    (dwc : DateWeighting) (today : Int) (h1 h2 : List HistoryEntry)
    (e : HistoryEntry) (htype : aw.find? (fun p => p.1 == e.type) = none) :
    (0 < e.score →
      ∀ s, lookupTotals (applyWeighting aw pg dwc today (h1 ++ e :: h2)) s =
        lookupTotals (applyWeighting aw pg dwc today (h1 ++ h2)) s) ∧
    (e.score ≤ 0 →
      entryWeight aw pg dwc today e =
        ((Int.floor ((100 : ℚ) * (1 - lookupD pg e.subject (1/10))) : Int) : ℚ) *
          calculateDateWeight e.date dwc today) := by
  have hbase : lookupD aw e.type 0 = 0 := by
    simp [lookupD, htype]
  constructor
  · intro hpos s
    have hw0 : entryWeight aw pg dwc today e = 0 := by
      simp [entryWeight, hbase, if_pos hpos]
    have hr0 : refEntryWeight aw pg dwc today e = 0 := by
      rw [refEntryWeight_eq_entryWeight]; exact hw0
    have hfold1 := lookupTotals_applyWeighting_foldl aw pg dwc today (h1 ++ e :: h2) [] s
    have hfold2 := lookupTotals_applyWeighting_foldl aw pg dwc today (h1 ++ h2) [] s
    rw [show applyWeighting aw pg dwc today (h1 ++ e :: h2) =
        (h1 ++ e :: h2).foldl
          (fun totals e2 =>
            addTotals totals e2.subject
              (e2.score * entryWeight aw pg dwc today e2)
              (entryWeight aw pg dwc today e2)) [] from rfl, hfold1]
    rw [show applyWeighting aw pg dwc today (h1 ++ h2) =
        (h1 ++ h2).foldl
          (fun totals e2 =>
            addTotals totals e2.subject
              (e2.score * entryWeight aw pg dwc today e2)
              (entryWeight aw pg dwc today e2)) [] from rfl, hfold2]
    have hws : refWeightedSum aw pg dwc today (h1 ++ e :: h2) s =
        refWeightedSum aw pg dwc today (h1 ++ h2) s := by
      rw [refWeightedSum_append, refWeightedSum_append]
      have : refWeightedSum aw pg dwc today (e :: h2) s =
          refWeightedSum aw pg dwc today h2 s := by
        by_cases hsub : (e.subject == s)
        · simp [refWeightedSum, List.filter_cons, hsub, hr0]
        · simp [refWeightedSum, List.filter_cons,
            Bool.not_eq_true _ ▸ (Bool.eq_false_iff.mpr hsub)]
      rw [this]
    have hwt : refWeightTotal aw pg dwc today (h1 ++ e :: h2) s =
        refWeightTotal aw pg dwc today (h1 ++ h2) s := by
      rw [refWeightTotal_append, refWeightTotal_append]
      have : refWeightTotal aw pg dwc today (e :: h2) s =
          refWeightTotal aw pg dwc today h2 s := by
        by_cases hsub : (e.subject == s)
        · simp [refWeightTotal, List.filter_cons, hsub, hr0]
        · simp [refWeightTotal, List.filter_cons,
            Bool.not_eq_true _ ▸ (Bool.eq_false_iff.mpr hsub)]
      rw [this]
    rw [hws, hwt]
  · intro hneg
    simp [entryWeight, hbase, if_neg (not_lt.mpr hneg)]

/-- C8 witness: the amended theorem applied to a positive-score entry of
unknown type sitting between two empty history segments. -/
theorem claim_C8_lookup_gap_amended_witness :
    lookupTotals (applyWeighting [("Exam", (2 : ℚ))] [] ⟨1, 1, 1⟩ 0
        ([] ++ (⟨"A", "Bogus", 5, none⟩ : HistoryEntry) :: [])) "A" =
      lookupTotals (applyWeighting [("Exam", (2 : ℚ))] [] ⟨1, 1, 1⟩ 0 ([] ++ [])) "A" :=
  (claim_C8_lookup_gap_amended [("Exam", 2)] [] ⟨1, 1, 1⟩ 0 [] []
    ⟨"A", "Bogus", 5, none⟩ (by decide)).1 (by norm_num) "A"

/-- C9 reference numerator from the claim: sum of `score * assessmentWeight`
over one subject's non-negative-score entries. -/
def refC9Num (aw : List (String × ℚ)) (history : List HistoryEntry) (s : String) : ℚ :=
  ((history.filter
      (fun e => decide (stripString e.subject = s) && decide (0 ≤ e.score))).map
    (fun e => e.score * lookupD aw (stripString e.type) 0)).sum

/-- C9 reference denominator from the claim: that subject's summed weight. -/
def refC9Den (aw : List (String × ℚ)) (history : List HistoryEntry) (s : String) : ℚ :=
  ((history.filter
      (fun e => decide (stripString e.subject = s) && decide (0 ≤ e.score))).map
    (fun e => lookupD aw (stripString e.type) 0)).sum

/-- C9 reference value transcribed from the claim: the weighted sum divided by
the summed weight, scaled by `/100` and clamped to `[0, 1]`; exactly 0 when
the summed weight is zero. -/
def refPredictedGradeSpec (aw : List (String × ℚ)) (history : List HistoryEntry)
    (s : String) : ℚ :=
  if refC9Den aw history s = 0 then 0
  else max (min ((refC9Num aw history s / refC9Den aw history s) / 100) 1) 0

theorem insertSorted_perm (s : String) (l : List String) :
    List.Perm (insertSorted s l) (s :: l) := by
  induction l with
  | nil => exact List.Perm.refl _
  | cons x xs ih =>
    simp only [insertSorted]
    by_cases h : stringLe s x
    · rw [if_pos h]
    · rw [if_neg h]
      exact (List.Perm.cons x ih).trans (List.Perm.swap s x xs)

theorem sortStrings_perm (l : List String) : List.Perm (sortStrings l) l := by
  induction l with
  | nil => exact List.Perm.refl _
  | cons x xs ih =>
    exact (insertSorted_perm x (sortStrings xs)).trans (List.Perm.cons x ih)

theorem mem_insertUnique (l : List String) (s x : String) :
    x ∈ insertUnique l s ↔ x ∈ l ∨ x = s := by
  unfold insertUnique
  by_cases h : s ∈ l
  · rw [if_pos h]
    constructor
    · exact Or.inl
    · rintro (hx | hx)
      · exact hx
      · exact hx ▸ h
  · rw [if_neg h]
    simp

theorem nodup_insertUnique (l : List String) (s : String) (h : l.Nodup) :
    (insertUnique l s).Nodup := by
  unfold insertUnique
  by_cases hm : s ∈ l
  · rwa [if_pos hm]
  · rw [if_neg hm]
    simpa [List.nodup_append] using ⟨h, hm⟩

theorem lookupD_nonneg (aw : List (String × ℚ)) (k : String)
    (hw : ∀ p ∈ aw, 0 ≤ p.2) : 0 ≤ lookupD aw k 0 := by
  unfold lookupD
  cases hfind : aw.find? (fun p => p.1 == k) with
  | none => exact le_refl 0
  | some p => exact hw p (List.mem_of_find?_eq_some hfind)

theorem lookupTotals_predictedGradeTotals_foldl (aw : List (String × ℚ))
    (history : List HistoryEntry) (init : Totals) (s : String) (hs : s ≠ "")
    (hw : ∀ p ∈ aw, 0 ≤ p.2) :
    lookupTotals (history.foldl (predictedGradeStep aw) init) s =
      ((lookupTotals init s).1 + refC9Num aw history s,
       (lookupTotals init s).2 + refC9Den aw history s) := by
  induction history generalizing init with
  | nil => simp [refC9Num, refC9Den]
  | cons e rest ih =>
    simp only [List.foldl_cons]
    by_cases hb : stripString e.subject = ""
    · have hskip : predictedGradeStep aw init e = init := by
        simp [predictedGradeStep, hb]
      have hfil : (decide (stripString e.subject = s) && decide (0 ≤ e.score)) = false := by
        have : stripString e.subject ≠ s := fun h => hs (h ▸ hb)
        simp [this]
      rw [hskip, ih]
      simp [refC9Num, refC9Den, List.filter_cons, hfil]
    · by_cases hneg : e.score < 0
      · have hskip : predictedGradeStep aw init e = init := by
          simp [predictedGradeStep, hb, hneg]
        have hfil : (decide (stripString e.subject = s) && decide (0 ≤ e.score)) = false := by
          simp [not_le.mpr hneg]
        rw [hskip, ih]
        simp [refC9Num, refC9Den, List.filter_cons, hfil]
      · by_cases hwz : lookupD aw (stripString e.type) 0 ≤ 0
        · have hskip : predictedGradeStep aw init e = init := by
            simp [predictedGradeStep, hb, hneg, hwz]
          have hw0 : lookupD aw (stripString e.type) 0 = 0 :=
            le_antisymm hwz (lookupD_nonneg aw (stripString e.type) hw)
          rw [hskip, ih]
          by_cases hsub : stripString e.subject = s
          · have hfil : (decide (stripString e.subject = s) && decide (0 ≤ e.score)) = true := by
              simp [hsub, not_lt.mp hneg]
            simp [refC9Num, refC9Den, List.filter_cons, hfil, hw0]
          · have hfil : (decide (stripString e.subject = s) && decide (0 ≤ e.score)) = false := by
              simp [hsub]
            simp [refC9Num, refC9Den, List.filter_cons, hfil]
        · have hstep : predictedGradeStep aw init e =
              addTotals init (stripString e.subject)
                (e.score * lookupD aw (stripString e.type) 0)
                (lookupD aw (stripString e.type) 0) := by
            simp [predictedGradeStep, hb, hneg, hwz]
          rw [hstep, ih, lookupTotals_addTotals]
          by_cases hsub : s = stripString e.subject
          · rw [if_pos hsub]
            have hfil : (decide (stripString e.subject = s) && decide (0 ≤ e.score)) = true := by
              simp [hsub.symm, not_lt.mp hneg]
            simp only [refC9Num, refC9Den, List.filter_cons, hfil, if_true,
              List.map_cons, List.sum_cons, Prod.mk.injEq]
            constructor <;> ring
          · rw [if_neg hsub]
            have hfil : (decide (stripString e.subject = s) && decide (0 ≤ e.score)) = false := by
              have : stripString e.subject ≠ s := fun h => hsub h.symm
              simp [this]
            simp [refC9Num, refC9Den, List.filter_cons, hfil]

theorem mem_trackedFromHistory_ne_empty (history : List HistoryEntry)
    (init : List String) (x : String)
    (hinit : ∀ y ∈ init, y ≠ "")
    (hx : x ∈ history.foldl
      (fun tracked e =>
        if stripString e.subject = "" then tracked
        else insertUnique tracked (stripString e.subject)) init) : x ≠ "" := by
  induction history generalizing init with
  | nil => exact hinit x hx
  | cons e rest ih =>
    simp only [List.foldl_cons] at hx
    by_cases hb : stripString e.subject = ""
    · rw [if_pos hb] at hx
      exact ih init hinit hx
    · rw [if_neg hb] at hx
      refine ih _ ?_ hx
      intro y hy
      rcases (mem_insertUnique init (stripString e.subject) y).mp hy with h1 | h1
      · exact hinit y h1
      · exact h1 ▸ hb

theorem nodup_foldl_insertUnique_tracked (history : List HistoryEntry)
    (init : List String) (h : init.Nodup) :
    (history.foldl
      (fun tracked e =>
        if stripString e.subject = "" then tracked
        else insertUnique tracked (stripString e.subject)) init).Nodup := by
  induction history generalizing init with
  | nil => exact h
  | cons e rest ih =>
    simp only [List.foldl_cons]
    by_cases hb : stripString e.subject = ""
    · rw [if_pos hb]; exact ih init h
    · rw [if_neg hb]
      exact ih _ (nodup_insertUnique init (stripString e.subject) h)

theorem lookupD_map_self (l : List String) (g : String → ℚ) (s : String) (d : ℚ)
    (hs : s ∈ l) : lookupD (l.map (fun x => (x, g x))) s d = g s := by
  induction l with
  | nil => cases hs
  | cons x xs ih =>
    by_cases hx : x = s
    · subst hx
      simp [lookupD, List.find?]
    · have hb : (x == s) = false := beq_eq_false_iff_ne.mpr hx
      have hmem : s ∈ xs := by
        rcases List.mem_cons.mp hs with h1 | h1
        · exact absurd h1.symm hx
        · exact h1
      simpa [lookupD, List.find?, hb] using ih hmem

theorem sum_nonneg_all_zero (l : List ℚ) (h0 : ∀ x ∈ l, 0 ≤ x)
    (hsum : l.sum = 0) : ∀ x ∈ l, x = 0 := by
  induction l with
  | nil => intro x hx; cases hx
  | cons a t ih =>
    have hta : 0 ≤ a := h0 a (List.mem_cons_self a t)
    have htt : 0 ≤ t.sum := List.sum_nonneg (fun x hx => h0 x (List.mem_cons_of_mem a hx))
    rw [List.sum_cons] at hsum
    have ha : a = 0 := by linarith
    have ht : t.sum = 0 := by linarith
    intro x hx
    rcases List.mem_cons.mp hx with h1 | h1
    · exact h1 ▸ ha
    · exact ih (fun y hy => h0 y (List.mem_cons_of_mem a hy)) ht x h1

/-- C9 counterexample: one `Quiz` entry of score 80 under weight `1/2`.  The
code divides by `max(weightTotal, 1) = 1` and yields `0.4`, while the claim's
formula divides by the summed weight `1/2` and yields `0.8`. -/
theorem claim_C9_predicted_grades_counterexample :
    lookupD (calculatePredictedGradesFromHistory [("Quiz", 1/2)]
      [⟨"A", "Quiz", 80, none⟩]) "A" 0 = 2/5 ∧
    refPredictedGradeSpec [("Quiz", 1/2)] [⟨"A", "Quiz", 80, none⟩] "A" = 4/5 ∧
    ((2 : ℚ)/5) ≠ 4/5 := by
  have hsA : stripString "A" = "A" := by decide
  have hsQ : stripString "Quiz" = "Quiz" := by decide
  have hnum : refC9Num [("Quiz", 1/2)] [⟨"A", "Quiz", 80, none⟩] "A" = 40 := by
    simp only [refC9Num, List.filter_cons, List.filter_nil, hsA, hsQ]
    norm_num [lookupD, List.find?, hsQ]
  have hden : refC9Den [("Quiz", 1/2)] [⟨"A", "Quiz", 80, none⟩] "A" = 1/2 := by
    simp only [refC9Den, List.filter_cons, List.filter_nil, hsA, hsQ]
    norm_num [lookupD, List.find?, hsQ]
  refine ⟨?_, ?_, by norm_num⟩
  · have hsort : sortStrings (trackedFromHistory [⟨"A", "Quiz", 80, none⟩]) = ["A"] := by
      decide
    have htot : lookupTotals
        (predictedGradeTotals [("Quiz", 1/2)] [⟨"A", "Quiz", 80, none⟩]) "A" = (40, 1/2) := by
      have := lookupTotals_predictedGradeTotals_foldl [("Quiz", 1/2)]
        [⟨"A", "Quiz", 80, none⟩] [] "A" (by decide) (by norm_num)
      rw [show predictedGradeTotals [("Quiz", 1/2)] [⟨"A", "Quiz", 80, none⟩] =
          [(⟨"A", "Quiz", 80, none⟩ : HistoryEntry)].foldl
            (predictedGradeStep [("Quiz", 1/2)]) [] from rfl, this, hnum, hden]
      norm_num [lookupTotals]
    rw [show calculatePredictedGradesFromHistory [("Quiz", 1/2)] [⟨"A", "Quiz", 80, none⟩] =
        (sortStrings (trackedFromHistory [⟨"A", "Quiz", 80, none⟩])).map
          (fun subject =>
            (subject,
              max (min (((lookupTotals (predictedGradeTotals [("Quiz", 1/2)]
                [⟨"A", "Quiz", 80, none⟩]) subject).1 /
                  max (lookupTotals (predictedGradeTotals [("Quiz", 1/2)]
                    [⟨"A", "Quiz", 80, none⟩]) subject).2 1) / 100) 1) 0)) from rfl,
      hsort]
    simp only [List.map_cons, List.map_nil, htot]
    norm_num [lookupD, List.find?]
  · rw [refPredictedGradeSpec, hnum, hden]
    norm_num

/-- C9 (amended): for non-negative configured weights,
`_calculate_predicted_grades_from_history` gives each subject appearing in
history the clamped value of the non-negative-score weighted average divided
by `max(summed weight, 1)` (not the summed weight itself), scaled by `/100`;
zero-total-weight subjects yield exactly 0 and the result always lies in
`[0, 1]`. -/
theorem claim_C9_predicted_grades_amended (aw : List (String × ℚ))
    (history : List HistoryEntry) (hw : ∀ p ∈ aw, 0 ≤ p.2) (s : String)
    (hs : s ∈ trackedFromHistory history) :
    lookupD (calculatePredictedGradesFromHistory aw history) s 0 =
      max (min ((refC9Num aw history s / max (refC9Den aw history s) 1) / 100) 1) 0 ∧
    0 ≤ lookupD (calculatePredictedGradesFromHistory aw history) s 0 ∧
    lookupD (calculatePredictedGradesFromHistory aw history) s 0 ≤ 1 ∧
    (refC9Den aw history s = 0 →
      lookupD (calculatePredictedGradesFromHistory aw history) s 0 = 0) := by
  have hne : s ≠ "" := mem_trackedFromHistory_ne_empty history [] s (by simp) hs
  have hmemsort : s ∈ sortStrings (trackedFromHistory history) :=
    ((sortStrings_perm (trackedFromHistory history)).mem_iff).mpr hs
  have htot : lookupTotals (predictedGradeTotals aw history) s =
      (refC9Num aw history s, refC9Den aw history s) := by
    have := lookupTotals_predictedGradeTotals_foldl aw history [] s hne hw
    rw [show predictedGradeTotals aw history =
        history.foldl (predictedGradeStep aw) [] from rfl, this]
    norm_num [lookupTotals]
  have hmain : lookupD (calculatePredictedGradesFromHistory aw history) s 0 =
      max (min ((refC9Num aw history s / max (refC9Den aw history s) 1) / 100) 1) 0 := by
    rw [show calculatePredictedGradesFromHistory aw history =
        (sortStrings (trackedFromHistory history)).map
          (fun subject =>
            (subject,
              max (min (((lookupTotals (predictedGradeTotals aw history) subject).1 /
                max (lookupTotals (predictedGradeTotals aw history) subject).2 1) / 100) 1) 0))
        from rfl]
    rw [lookupD_map_self _ _ s 0 hmemsort, htot]
  refine ⟨hmain, ?_, ?_, ?_⟩
  · rw [hmain]; exact le_max_right _ _
  · rw [hmain]
    exact max_le (le_trans (min_le_right _ _) le_rfl) zero_le_one
  · intro hden0
    have hnum0 : refC9Num aw history s = 0 := by
      have hterms : ∀ x ∈ (history.filter
          (fun e => decide (stripString e.subject = s) && decide (0 ≤ e.score))).map
            (fun e => lookupD aw (stripString e.type) 0), x = 0 := by
        refine sum_nonneg_all_zero _ ?_ hden0
        intro x hx
        obtain ⟨e, _, hex⟩ := List.mem_map.mp hx
        exact hex ▸ lookupD_nonneg aw (stripString e.type) hw
      refine List.sum_eq_zero ?_
      intro x hx
      obtain ⟨e, hemem, hex⟩ := List.mem_map.mp hx
      have hz : lookupD aw (stripString e.type) 0 = 0 := by
        refine hterms _ (List.mem_map.mpr ⟨e, hemem, rfl⟩)
      rw [← hex, hz, mul_zero]
    rw [hmain, hnum0, hden0]
    norm_num

/-- C9 witness: the amended theorem applied to the single-entry history used
as counterexample input. -/
theorem claim_C9_predicted_grades_amended_witness :
    lookupD (calculatePredictedGradesFromHistory [("Quiz", (1:ℚ)/2)]
        [⟨"A", "Quiz", 80, none⟩]) "A" 0 =
      max (min ((refC9Num [("Quiz", (1:ℚ)/2)] [⟨"A", "Quiz", 80, none⟩] "A" /
        max (refC9Den [("Quiz", (1:ℚ)/2)] [⟨"A", "Quiz", 80, none⟩] "A") 1) / 100) 1) 0 :=
  (claim_C9_predicted_grades_amended [("Quiz", (1:ℚ)/2)] [⟨"A", "Quiz", 80, none⟩]
    (by norm_num) "A" (by decide)).1

theorem adjustLocalScores_keys (scores : List (String × ℚ)) (chosen : String)
    (session_time break_time : Int) :
    (adjustLocalScores scores chosen session_time break_time).map Prod.fst =
      scores.map Prod.fst := by
  simp only [adjustLocalScores, List.map_map]
  apply List.map_congr_left
  intro p _
  by_cases h : p.1 = chosen <;> simp [h]

theorem normaliseScores_keys (scores : List (String × ℚ)) :
    (normaliseScores scores).map Prod.fst = scores.map Prod.fst := by
  simp only [normaliseScores, List.map_map]
  exact List.map_congr_left (fun p _ => rfl)

theorem normaliseScores_ne_nil (scores : List (String × ℚ)) (h : scores ≠ []) :
    normaliseScores scores ≠ [] := by
  intro hc
  have := congrArg List.length hc
  simp [normaliseScores] at this
  exact h this

theorem chooseLowestSubject_ok_mem (l : List (String × ℚ)) (s : String)
    (h : chooseLowestSubject l = .ok s) : s ∈ l.map Prod.fst := by
  match l with
  | [] => cases h
  | b :: rest =>
    have hs : (foldMin b rest).1 = s := by
      have : Except.ok (ε := String) (foldMin b rest).1 = .ok s := h
      exact Except.ok.inj this
    have hm : foldMin b rest ∈ b :: rest := (foldMin_mem_min rest b).1
    exact hs ▸ List.mem_map.mpr ⟨foldMin b rest, hm, rfl⟩

theorem chooseLowestSubject_isOk (l : List (String × ℚ)) (h : l ≠ []) :
    ∃ s, chooseLowestSubject l = .ok s := by
  match l with
  | [] => exact absurd rfl h
  | b :: rest => exact ⟨(foldMin b rest).1, rfl⟩

theorem mem_foldl_insertUnique (l : List String) (init : List String) (x : String) :
    x ∈ l.foldl insertUnique init ↔ x ∈ init ∨ x ∈ l := by
  induction l generalizing init with
  | nil => simp
  | cons a t ih =>
    simp only [List.foldl_cons, ih, mem_insertUnique, List.mem_cons]
    constructor
    · rintro ((h | h) | h)
      · exact Or.inl h
      · exact Or.inr (Or.inl h)
      · exact Or.inr (Or.inr h)
    · rintro (h | h | h)
      · exact Or.inl (Or.inl h)
      · exact Or.inl (Or.inr h)
      · exact Or.inr h

theorem foldl_insertUnique_of_subset (l : List String) (init : List String)
    (h : ∀ x ∈ l, x ∈ init) : l.foldl insertUnique init = init := by
  induction l generalizing init with
  | nil => rfl
  | cons a t ih =>
    have ha : a ∈ init := h a (List.mem_cons_self a t)
    simp only [List.foldl_cons, insertUnique, if_pos ha]
    exact ih init (fun x hx => h x (List.mem_cons_of_mem a hx))

theorem nodup_foldl_insertUnique (l : List String) (init : List String)
    (h : init.Nodup) : (l.foldl insertUnique init).Nodup := by
  induction l generalizing init with
  | nil => exact h
  | cons a t ih =>
    simp only [List.foldl_cons]
    exact ih _ (nodup_insertUnique init a h)

theorem initialiseLocalScores_keys (cfg : Config) (today : Int)
    (history : List HistoryEntry) :
    (initialiseLocalScores cfg today history).map Prod.fst =
      cfg.predictedGrades.map Prod.fst := by
  simp only [initialiseLocalScores, aggregateScores, List.map_map]
  exact List.map_congr_left (fun p _ => rfl)

theorem initialiseLocalScores_ne_nil (cfg : Config) (today : Int)
    (history : List HistoryEntry) (h : cfg.predictedGrades ≠ []) :
    initialiseLocalScores cfg today history ≠ [] := by
  intro hc
  have := congrArg List.length hc
  simp [initialiseLocalScores, aggregateScores] at this
  exact h this

theorem mem_collectSubjects_of_key (history : List HistoryEntry)
    (pg : List (String × ℚ)) (k : String) (hk : k ∈ pg.map Prod.fst)
    (hne : k ≠ "") : k ∈ collectSubjects history pg := by
  simp only [collectSubjects]
  refine List.mem_filter.mpr ⟨?_, by simpa using hne⟩
  exact (mem_foldl_insertUnique _ [] k).mpr (Or.inr (List.mem_append_right _ hk))

theorem nodup_collectSubjects (history : List HistoryEntry)
    (pg : List (String × ℚ)) : (collectSubjects history pg).Nodup := by
  simp only [collectSubjects]
  exact List.Nodup.filter _ (nodup_foldl_insertUnique _ [] List.nodup_nil)

theorem filterMap_if_not_mem (l : List String) (studied : List String)
    (f : String → HistoryEntry) :
    l.filterMap (fun x => if x ∈ studied then none else some (f x)) =
      (l.filter (fun x => decide (x ∉ studied))).map f := by
  induction l with
  | nil => rfl
  | cons a t ih =>
    by_cases h : a ∈ studied
    · simp [List.filterMap_cons, List.filter_cons, h, ih]
    · simp [List.filterMap_cons, List.filter_cons, h, ih]

theorem filter_mem_length (l S : List String) (hl : l.Nodup) (hS : S.Nodup)
    (hsub : ∀ x ∈ S, x ∈ l) :
    (l.filter (fun x => decide (x ∈ S))).length = S.length := by
  induction l generalizing S with
  | nil =>
    match S with
    | [] => simp
    | a :: t => exact absurd (hsub a (List.mem_cons_self a t)) (by simp)
  | cons a t ih =>
    have hat : a ∉ t := (List.nodup_cons.mp hl).1
    have htn : t.Nodup := (List.nodup_cons.mp hl).2
    by_cases ha : a ∈ S
    · rw [List.filter_cons, if_pos (by simpa using ha)]
      have hS2 : (S.erase a).Nodup := hS.erase a
      have hsub2 : ∀ x ∈ S.erase a, x ∈ t := by
        intro x hx
        have hxS : x ∈ S := List.mem_of_mem_erase hx
        have hxa : x ≠ a := (List.Nodup.mem_erase_iff hS).mp hx |>.1
        rcases List.mem_cons.mp (hsub x hxS) with h1 | h1
        · exact absurd h1 hxa
        · exact h1
      have hfil : (t.filter (fun x => decide (x ∈ S))).length =
          (t.filter (fun x => decide (x ∈ S.erase a))).length := by
        have : ∀ x ∈ t, (decide (x ∈ S) : Bool) = decide (x ∈ S.erase a) := by
          intro x hx
          have hxa : x ≠ a := fun hc => hat (hc ▸ hx)
          simp [List.Nodup.mem_erase_iff hS, hxa]
        rw [List.filter_congr this]
      rw [List.length_cons, hfil, ih (S.erase a) htn hS2 hsub2,
        List.length_erase_of_mem ha]
      have : 0 < S.length := List.length_pos.mpr (fun hc => by simp [hc] at ha)
      omega
    · rw [List.filter_cons, if_neg (by simpa using ha)]
      refine ih S htn hS ?_
      intro x hx
      rcases List.mem_cons.mp (hsub x hx) with h1 | h1
      · exact absurd (h1 ▸ hx) ha
      · exact h1

theorem buildNotStudiedEntries_eq (cfg : Config) (sinQ : ℚ → ℚ) (piQ : ℚ)
    (tracked studied : List String) (t b : Int) (d : Option Int) :
    buildNotStudiedEntries cfg sinQ piQ tracked studied t b d =
      ((sortStrings tracked).filter (fun x => decide (x ∉ studied))).map
        (fun subject =>
          ⟨subject, "Not Studied",
            -sinQ ((1 - lookupD cfg.predictedGrades subject 0) * piQ) *
              ((t : ℚ) + (b : ℚ)), d⟩) := by
  simp only [buildNotStudiedEntries]
  exact filterMap_if_not_mem (sortStrings tracked) studied _

theorem runSelections_ok (cfg : Config) (sinQ : ℚ → ℚ) (piQ : ℚ)
    (t b : Int) (d : Option Int) (n : Nat) (st : ShotState)
    (hne : st.scores ≠ []) :
    ∃ (newSubs : List String) (st2 : ShotState),
      runSelections cfg sinQ piQ t b d n st = .ok st2 ∧
      newSubs.length = n ∧
      (∀ x ∈ newSubs, x ∈ st.scores.map Prod.fst) ∧
      st2.subjects = st.subjects ++ newSubs ∧
      st2.entries = st.entries ++
        newSubs.map (fun sub => buildRevisionEntry cfg sinQ piQ sub t b d) ∧
      st2.history = st.history ++
        newSubs.map (fun sub => buildRevisionEntry cfg sinQ piQ sub t b d) ∧
      st2.tracked = newSubs.foldl insertUnique st.tracked ∧
      st2.scores.map Prod.fst = st.scores.map Prod.fst := by
  induction n generalizing st with
  | zero =>
    refine ⟨[], st, rfl, rfl, by simp, by simp, by simp, by simp, rfl, rfl⟩
  | succ m ih =>
    obtain ⟨sub, hsub⟩ := chooseLowestSubject_isOk (normaliseScores st.scores)
      (normaliseScores_ne_nil st.scores hne)
    have hsubmem : sub ∈ st.scores.map Prod.fst := by
      have := chooseLowestSubject_ok_mem (normaliseScores st.scores) sub hsub
      rwa [normaliseScores_keys] at this
    set entry := buildRevisionEntry cfg sinQ piQ sub t b d with hentry
    set st1 : ShotState :=
      { history := st.history ++ [entry]
        scores := adjustLocalScores st.scores sub t b
        subjects := st.subjects ++ [sub]
        entries := st.entries ++ [entry]
        tracked := insertUnique st.tracked sub } with hst1
    have hstep : selectionStep cfg sinQ piQ t b d st = .ok st1 := by
      simp only [selectionStep, hsub]
    have hne1 : st1.scores ≠ [] := by
      intro hc
      have := congrArg List.length hc
      simp only [hst1, adjustLocalScores, List.length_map, List.length_nil] at this
      exact hne (List.length_eq_zero.mp this)
    obtain ⟨newSubs, st2, hrun, hlen, hmem, hsubj, hent, hhist, htr, hkeys⟩ := ih st1 hne1
    refine ⟨sub :: newSubs, st2, ?_, ?_, ?_, ?_, ?_, ?_, ?_, ?_⟩
    · simp only [runSelections, hstep, hrun]
    · simp [hlen]
    · intro x hx
      rcases List.mem_cons.mp hx with h1 | h1
      · exact h1 ▸ hsubmem
      · have := hmem x h1
        rwa [show st1.scores = adjustLocalScores st.scores sub t b from rfl,
          adjustLocalScores_keys] at this
    · rw [hsubj]
      simp [hst1, List.append_assoc]
    · rw [hent]
      simp [hst1, List.append_assoc]
    · rw [hhist]
      simp [hst1, List.append_assoc]
    · rw [htr]
      rfl
    · rw [hkeys, show st1.scores = adjustLocalScores st.scores sub t b from rfl,
        adjustLocalScores_keys]

theorem runSinglePlan_anatomy (cfg : Config) (sinQ : ℚ → ℚ) (piQ : ℚ)
    (shuffle : List String → List String) (params : SessionParams)
    (d : Option Int) (today : Int) (history : List HistoryEntry)
    (hpg : cfg.predictedGrades ≠ []) :
    ∃ (selected : List String) (plan : SessionPlan),
      runSinglePlan cfg sinQ piQ shuffle params d today history =
        .ok (plan, plan.history) ∧
      selected.length = (max params.count 0).toNat ∧
      (∀ x ∈ selected, x ∈ cfg.predictedGrades.map Prod.fst) ∧
      plan.subjects = shuffle selected ∧
      plan.new_entries =
        selected.map (fun sub => buildRevisionEntry cfg sinQ piQ sub
          params.session_time params.break_time d) ++
        buildNotStudiedEntries cfg sinQ piQ
          (selected.foldl insertUnique (collectSubjects history cfg.predictedGrades))
          selected params.session_time params.break_time d ∧
      plan.history = history ++ plan.new_entries := by
  have hne : initialiseLocalScores cfg today history ≠ [] :=
    initialiseLocalScores_ne_nil cfg today history hpg
  obtain ⟨newSubs, st2, hrun, hlen, hmem, hsubj, hent, hhist, htr, hkeys⟩ :=
    runSelections_ok cfg sinQ piQ params.session_time params.break_time d
      ((max params.count 0).toNat)
      ⟨history, initialiseLocalScores cfg today history, [], [],
        collectSubjects history cfg.predictedGrades⟩ hne
  refine ⟨newSubs, ⟨shuffle st2.subjects,
    st2.entries ++ buildNotStudiedEntries cfg sinQ piQ st2.tracked st2.subjects
      params.session_time params.break_time d,
    st2.history ++ buildNotStudiedEntries cfg sinQ piQ st2.tracked st2.subjects
      params.session_time params.break_time d⟩, ?_, hlen, ?_, ?_, ?_, ?_⟩
  · simp only [runSinglePlan, hrun]
  · intro x hx
    have := hmem x hx
    rwa [initialiseLocalScores_keys] at this
  · simp only [hsubj, List.nil_append]
  · simp only [hent, hsubj, htr, List.nil_append]
  · simp only [hent, hhist, hsubj, htr, List.nil_append, List.append_assoc]

/-- C2: a shot with session count `N` over `K ≥ N` tracked subjects yields
exactly `N` entries of type `"Revision"`, exactly one `"Not Studied"` entry
for each tracked subject not selected (`K - |distinct selected|` of them,
each subject at most once), and every tracked subject lands in exactly one of
the two synthetic-entry sets. -/
theorem claim_C2_plan_entry_counts (cfg : Config) (sinQ : ℚ → ℚ) (piQ : ℚ)
    (shuffle : List String → List String) (params : SessionParams)
    (d : Option Int) (today : Int) (history : List HistoryEntry)
    (hpg : cfg.predictedGrades ≠ [])
    (hkeys : ∀ p ∈ cfg.predictedGrades, p.1 ≠ "")
    (hKN : (max params.count 0).toNat ≤
      (collectSubjects history cfg.predictedGrades).length) :
    ∃ plan hist2,
      runSinglePlan cfg sinQ piQ shuffle params d today history = .ok (plan, hist2) ∧
      (plan.new_entries.filter (fun e => e.type == "Revision")).length =
        (max params.count 0).toNat ∧
      (plan.new_entries.filter (fun e => e.type == "Not Studied")).length =
        (collectSubjects history cfg.predictedGrades).length -
          ((plan.new_entries.filter (fun e => e.type == "Revision")).map
            HistoryEntry.subject).dedup.length ∧
      ((plan.new_entries.filter (fun e => e.type == "Not Studied")).map
        HistoryEntry.subject).Nodup ∧
      ∀ s ∈ collectSubjects history cfg.predictedGrades,
        (s ∈ (plan.new_entries.filter (fun e => e.type == "Revision")).map
            HistoryEntry.subject ∧
         s ∉ (plan.new_entries.filter (fun e => e.type == "Not Studied")).map
            HistoryEntry.subject) ∨
        (s ∉ (plan.new_entries.filter (fun e => e.type == "Revision")).map
            HistoryEntry.subject ∧
         s ∈ (plan.new_entries.filter (fun e => e.type == "Not Studied")).map
            HistoryEntry.subject) := by
  obtain ⟨selected, plan, hrun, hlen, hmem, hsubj, hnew, hhist⟩ :=
    runSinglePlan_anatomy cfg sinQ piQ shuffle params d today history hpg
  set tracked0 := collectSubjects history cfg.predictedGrades with htr0
  have hselsub : ∀ x ∈ selected, x ∈ tracked0 := by
    intro x hx
    have hxpg := hmem x hx
    obtain ⟨p, hp, hpx⟩ := List.mem_map.mp hxpg
    exact mem_collectSubjects_of_key history cfg.predictedGrades x hxpg
      (hpx ▸ hkeys p hp)
  have hfold : selected.foldl insertUnique tracked0 = tracked0 :=
    foldl_insertUnique_of_subset selected tracked0 hselsub
  rw [hfold] at hnew
  rw [buildNotStudiedEntries_eq] at hnew
  set sorted := sortStrings tracked0 with hsorted
  have hperm : List.Perm sorted tracked0 := sortStrings_perm tracked0
  have hsortnodup : sorted.Nodup :=
    (hperm.nodup_iff).mpr (nodup_collectSubjects history cfg.predictedGrades)
  set revFn := fun sub => buildRevisionEntry cfg sinQ piQ sub
    params.session_time params.break_time d with hrevFn
  set penFn := fun subject => (⟨subject, "Not Studied",
    -sinQ ((1 - lookupD cfg.predictedGrades subject 0) * piQ) *
      ((params.session_time : ℚ) + (params.break_time : ℚ)), d⟩ : HistoryEntry)
    with hpenFn
  set pens := (sorted.filter (fun x => decide (x ∉ selected))).map penFn with hpens
  have hrevtype : ∀ sub, (revFn sub).type = "Revision" := fun _ => rfl
  have hpentype : ∀ sub, (penFn sub).type = "Not Studied" := fun _ => rfl
  have hfiltrev : plan.new_entries.filter (fun e => e.type == "Revision") =
      selected.map revFn := by
    rw [hnew, List.filter_append]
    have h1 : (selected.map revFn).filter (fun e => e.type == "Revision") =
        selected.map revFn := by
      refine List.filter_eq_self.mpr ?_
      intro a ha
      obtain ⟨sub, _, hsub⟩ := List.mem_map.mp ha
      rw [← hsub, hrevtype]
      exact beq_self_eq_true "Revision"
    have h2 : pens.filter (fun e => e.type == "Revision") = [] := by
      refine List.filter_eq_nil.mpr ?_
      intro a ha
      obtain ⟨sub, _, hsub⟩ := List.mem_map.mp ha
      rw [← hsub, hpentype]
      decide
    rw [h1, h2, List.append_nil]
  have hfiltpen : plan.new_entries.filter (fun e => e.type == "Not Studied") =
      pens := by
    rw [hnew, List.filter_append]
    have h1 : (selected.map revFn).filter (fun e => e.type == "Not Studied") = [] := by
      refine List.filter_eq_nil.mpr ?_
      intro a ha
      obtain ⟨sub, _, hsub⟩ := List.mem_map.mp ha
      rw [← hsub, hrevtype]
      decide
    have h2 : pens.filter (fun e => e.type == "Not Studied") = pens := by
      refine List.filter_eq_self.mpr ?_
      intro a ha
      obtain ⟨sub, _, hsub⟩ := List.mem_map.mp ha
      rw [← hsub, hpentype]
      exact beq_self_eq_true "Not Studied"
    rw [h1, h2, List.nil_append]
  have hrevsubs : (selected.map revFn).map HistoryEntry.subject = selected := by
    rw [List.map_map]
    exact (List.map_congr_left (fun x _ => rfl)).trans (List.map_id selected)
  have hpensubs : pens.map HistoryEntry.subject =
      sorted.filter (fun x => decide (x ∉ selected)) := by
    rw [hpens, List.map_map]
    exact (List.map_congr_left (fun x _ => rfl)).trans (List.map_id _)
  have hinlen : (sorted.filter (fun x => decide (x ∈ selected))).length =
      selected.dedup.length := by
    have hcongr : sorted.filter (fun x => decide (x ∈ selected)) =
        sorted.filter (fun x => decide (x ∈ selected.dedup)) := by
      refine List.filter_congr ?_
      intro x _
      simp [List.mem_dedup]
    rw [hcongr]
    refine filter_mem_length sorted selected.dedup hsortnodup (List.nodup_dedup selected) ?_
    intro x hx
    exact (hperm.mem_iff).mpr (hselsub x (List.mem_dedup.mp hx))
  have hsplit : sorted.length =
      (sorted.filter (fun x => decide (x ∈ selected))).length +
      (sorted.filter (fun x => decide (x ∉ selected))).length := by
    have := List.length_eq_length_filter_add (l := sorted)
      (fun x => decide (x ∈ selected))
    have hnot : sorted.filter (fun x => !decide (x ∈ selected)) =
        sorted.filter (fun x => decide (x ∉ selected)) := by
      refine List.filter_congr ?_
      intro x _
      simp
    rwa [hnot] at this
  have hsortlen : sorted.length = tracked0.length := hperm.length_eq
  refine ⟨plan, plan.history, hrun, ?_, ?_, ?_, ?_⟩
  · rw [hfiltrev, List.length_map, hlen]
  · rw [hfiltpen, hfiltrev, hrevsubs, hpens, List.length_map]
    omega
  · rw [hfiltpen, hpensubs]
    exact List.Nodup.filter _ hsortnodup
  · intro s hs
    rw [hfiltrev, hfiltpen, hrevsubs, hpensubs]
    by_cases hsel : s ∈ selected
    · left
      refine ⟨hsel, ?_⟩
      intro hc
      have := List.mem_filter.mp hc
      simp at this
      exact this.2 hsel
    · right
      refine ⟨hsel, ?_⟩
      refine List.mem_filter.mpr ⟨(hperm.mem_iff).mpr hs, by simpa using hsel⟩

/-- C2 witness: one session over the single tracked subject `"A"`. -/
theorem claim_C2_plan_entry_counts_witness :
    ∃ plan hist2,
      runSinglePlan ⟨[("Exam", 2)], ⟨0, 1, 300⟩, [("A", 1/2)]⟩ (fun _ => 0) 0
        id ⟨1, 45, 15⟩ none 0 [] = .ok (plan, hist2) ∧
      (plan.new_entries.filter (fun e => e.type == "Revision")).length =
        (max (1 : Int) 0).toNat ∧
      (plan.new_entries.filter (fun e => e.type == "Not Studied")).length =
        (collectSubjects [] [("A", 1/2)]).length -
          ((plan.new_entries.filter (fun e => e.type == "Revision")).map
            HistoryEntry.subject).dedup.length ∧
      ((plan.new_entries.filter (fun e => e.type == "Not Studied")).map
        HistoryEntry.subject).Nodup ∧
      ∀ s ∈ collectSubjects [] [("A", 1/2)],
        (s ∈ (plan.new_entries.filter (fun e => e.type == "Revision")).map
            HistoryEntry.subject ∧
         s ∉ (plan.new_entries.filter (fun e => e.type == "Not Studied")).map
            HistoryEntry.subject) ∨
        (s ∉ (plan.new_entries.filter (fun e => e.type == "Revision")).map
            HistoryEntry.subject ∧
         s ∈ (plan.new_entries.filter (fun e => e.type == "Not Studied")).map
            HistoryEntry.subject) :=
  claim_C2_plan_entry_counts ⟨[("Exam", 2)], ⟨0, 1, 300⟩, [("A", 1/2)]⟩
    (fun _ => 0) 0 id ⟨1, 45, 15⟩ none 0 []
    (by simp)
    (by intro p hp; rcases List.mem_singleton.mp hp with rfl; decide)
    (by decide)

/-- C10: every subject chosen by the selection loop carries a predicted
grade, and a tracked subject that has no predicted grade is never the subject
of a Revision entry yet receives a Not-Studied entry. -/
theorem claim_C10_selection_universe (cfg : Config) (sinQ : ℚ → ℚ) (piQ : ℚ)
    (shuffle : List String → List String) (params : SessionParams)
    (d : Option Int) (today : Int) (history : List HistoryEntry)
    (hpg : cfg.predictedGrades ≠ [])
    (hkeys : ∀ p ∈ cfg.predictedGrades, p.1 ≠ "") :
    ∃ plan hist2,
      runSinglePlan cfg sinQ piQ shuffle params d today history = .ok (plan, hist2) ∧
      (∀ e ∈ plan.new_entries, e.type = "Revision" →
        e.subject ∈ cfg.predictedGrades.map Prod.fst) ∧
      ∀ s ∈ collectSubjects history cfg.predictedGrades,
        s ∉ cfg.predictedGrades.map Prod.fst →
          (∀ e ∈ plan.new_entries, e.type = "Revision" → e.subject ≠ s) ∧
          ∃ e ∈ plan.new_entries, e.type = "Not Studied" ∧ e.subject = s := by
  obtain ⟨selected, plan, hrun, hlen, hmem, hsubj, hnew, hhist⟩ :=
    runSinglePlan_anatomy cfg sinQ piQ shuffle params d today history hpg
  set tracked0 := collectSubjects history cfg.predictedGrades with htr0
  have hselsub : ∀ x ∈ selected, x ∈ tracked0 := by
    intro x hx
    have hxpg := hmem x hx
    obtain ⟨p, hp, hpx⟩ := List.mem_map.mp hxpg
    exact mem_collectSubjects_of_key history cfg.predictedGrades x hxpg
      (hpx ▸ hkeys p hp)
  have hfold : selected.foldl insertUnique tracked0 = tracked0 :=
    foldl_insertUnique_of_subset selected tracked0 hselsub
  rw [hfold, buildNotStudiedEntries_eq] at hnew
  have hperm : List.Perm (sortStrings tracked0) tracked0 := sortStrings_perm tracked0
  have hmemtype : ∀ e ∈ plan.new_entries, e.type = "Revision" → ∃ x ∈ selected,
      e.subject = x := by
    intro e he htype
    rw [hnew] at he
    rcases List.mem_append.mp he with h1 | h1
    · obtain ⟨sub, hsubm, hsube⟩ := List.mem_map.mp h1
      refine ⟨sub, hsubm, ?_⟩
      rw [← hsube]
      rfl
    · obtain ⟨sub, _, hsube⟩ := List.mem_map.mp h1
      have hns : e.type = "Not Studied" := by rw [← hsube]
      exact absurd (hns.symm.trans htype) (by decide)
  refine ⟨plan, plan.history, hrun, ?_, ?_⟩
  · intro e he htype
    obtain ⟨x, hxsel, hex⟩ := hmemtype e he htype
    rw [hex]
    exact hmem x hxsel
  · intro s hstracked hsnopg
    have hsnotsel : s ∉ selected := fun hc => hsnopg (hmem s hc)
    constructor
    · intro e he htype
      obtain ⟨x, hxsel, hex⟩ := hmemtype e he htype
      intro hc
      exact hsnotsel ((hex.symm.trans hc) ▸ hxsel)
    · refine ⟨⟨s, "Not Studied",
        -sinQ ((1 - lookupD cfg.predictedGrades s 0) * piQ) *
          ((params.session_time : ℚ) + (params.break_time : ℚ)), d⟩, ?_, rfl, rfl⟩
      rw [hnew]
      refine List.mem_append_right _ ?_
      refine List.mem_map.mpr ⟨s, ?_, rfl⟩
      exact List.mem_filter.mpr ⟨(hperm.mem_iff).mpr hstracked, by simpa using hsnotsel⟩

/-- C10 witness: one shot over predicted grades `{A}` with subject `"B"`
appearing only in history. -/
theorem claim_C10_selection_universe_witness :
    ∃ plan hist2,
      runSinglePlan ⟨[("Exam", 2)], ⟨0, 1, 300⟩, [("A", 1/2)]⟩ (fun _ => 0) 0
        id ⟨1, 45, 15⟩ none 0 [⟨"B", "Exam", 50, none⟩] = .ok (plan, hist2) ∧
      (∀ e ∈ plan.new_entries, e.type = "Revision" →
        e.subject ∈ ([("A", (1:ℚ)/2)].map Prod.fst)) ∧
      ∀ s ∈ collectSubjects [⟨"B", "Exam", 50, none⟩] [("A", 1/2)],
        s ∉ ([("A", (1:ℚ)/2)].map Prod.fst) →
          (∀ e ∈ plan.new_entries, e.type = "Revision" → e.subject ≠ s) ∧
          ∃ e ∈ plan.new_entries, e.type = "Not Studied" ∧ e.subject = s :=
  claim_C10_selection_universe ⟨[("Exam", 2)], ⟨0, 1, 300⟩, [("A", 1/2)]⟩
    (fun _ => 0) 0 id ⟨1, 45, 15⟩ none 0 [⟨"B", "Exam", 50, none⟩]
    (by simp)
    (by intro p hp; rcases List.mem_singleton.mp hp with rfl; decide)

/-- The working-history chaining of sequential shots: each plan's snapshot is
the previous working history extended by exactly that plan's new entries. -/
def chainFrom : List HistoryEntry → List SessionPlan → Prop
  | _, [] => True
  | h, p :: ps => p.history = h ++ p.new_entries ∧ chainFrom p.history ps

theorem runShots_ok (cfg : Config) (sinQ : ℚ → ℚ) (piQ : ℚ)
    (shuffle : List String → List String) (params : SessionParams)
    (d : Option Int) (today : Int) (n : Nat) (hist : List HistoryEntry)
    (hpg : cfg.predictedGrades ≠ []) :
    ∃ plans, runShots cfg sinQ piQ shuffle params d today n hist = .ok plans ∧
      plans.length = n ∧ chainFrom hist plans := by
  induction n generalizing hist with
  | zero => exact ⟨[], rfl, rfl, trivial⟩
  | succ m ih =>
    obtain ⟨selected, plan, hrun, _, _, _, _, hhist⟩ :=
      runSinglePlan_anatomy cfg sinQ piQ shuffle params d today hist hpg
    obtain ⟨plans, hruns, hlen, hchain⟩ := ih plan.history
    refine ⟨plan :: plans, ?_, by simp [hlen], hhist, hchain⟩
    simp only [runShots, hrun, hruns]

theorem chainFrom_get (h : List HistoryEntry) (plans : List SessionPlan)
    (hc : chainFrom h plans) :
    ∀ i (hi : i + 1 < plans.length),
      (plans.get ⟨i + 1, hi⟩).history =
        (plans.get ⟨i, Nat.lt_of_succ_lt hi⟩).history ++
          (plans.get ⟨i + 1, hi⟩).new_entries := by
  induction plans generalizing h with
  | nil => intro i hi; cases hi
  | cons p ps ih =>
    intro i hi
    obtain ⟨hp, hcs⟩ := hc
    match i with
    | 0 =>
      match ps, hcs with
      | q :: qs, ⟨hq, _⟩ => exact hq
    | j + 1 =>
      exact ih p.history hcs j (Nat.lt_of_succ_lt_succ hi)

/-- C6: `generate_session_plan` runs its shots on one accumulated working
history: the first plan's history is the input plus its own new entries,
each later plan's history is the previous plan's history plus its own new
entries, and consecutive working-history lengths differ by exactly the
synthetic entries persisted in between. -/
theorem claim_C6_accumulated_history (cfg : Config) (sinQ : ℚ → ℚ) (piQ : ℚ)
    (shuffle : List String → List String) (params : SessionParams)
    (d : Option Int) (today : Int) (history : List HistoryEntry) (shots : Int)
    (hpg : cfg.predictedGrades ≠ []) :
    ∃ plans,
      generateSessionPlan cfg sinQ piQ shuffle history params d today shots =
        .ok plans ∧
      plans.length = (max shots 1).toNat ∧
      chainFrom history plans ∧
      ∀ i (hi : i + 1 < plans.length),
        (plans.get ⟨i + 1, hi⟩).history =
          (plans.get ⟨i, Nat.lt_of_succ_lt hi⟩).history ++
            (plans.get ⟨i + 1, hi⟩).new_entries ∧
        (plans.get ⟨i + 1, hi⟩).history.length =
          (plans.get ⟨i, Nat.lt_of_succ_lt hi⟩).history.length +
            (plans.get ⟨i + 1, hi⟩).new_entries.length := by
  obtain ⟨plans, hrun, hlen, hchain⟩ := runShots_ok cfg sinQ piQ shuffle params d
    today (max shots 1).toNat history hpg
  refine ⟨plans, hrun, hlen, hchain, ?_⟩
  intro i hi
  have hg := chainFrom_get history plans hchain i hi
  refine ⟨hg, ?_⟩
  rw [hg, List.length_append]

/-- C6 witness: two shots on the single-subject configuration. -/
theorem claim_C6_accumulated_history_witness :
    ∃ plans,
      generateSessionPlan ⟨[("Exam", 2)], ⟨0, 1, 300⟩, [("A", 1/2)]⟩ (fun _ => 0) 0
        id [] ⟨1, 45, 15⟩ none 0 2 = .ok plans ∧
      plans.length = (max (2 : Int) 1).toNat ∧
      chainFrom [] plans ∧
      ∀ i (hi : i + 1 < plans.length),
        (plans.get ⟨i + 1, hi⟩).history =
          (plans.get ⟨i, Nat.lt_of_succ_lt hi⟩).history ++
            (plans.get ⟨i + 1, hi⟩).new_entries ∧
        (plans.get ⟨i + 1, hi⟩).history.length =
          (plans.get ⟨i, Nat.lt_of_succ_lt hi⟩).history.length +
            (plans.get ⟨i + 1, hi⟩).new_entries.length :=
  claim_C6_accumulated_history ⟨[("Exam", 2)], ⟨0, 1, 300⟩, [("A", 1/2)]⟩
    (fun _ => 0) 0 id ⟨1, 45, 15⟩ none 0 [] 2 (by simp)

end SubjectRecommender
